import Mathlib

/-!
Verification of the member-speech visualization pipeline: the text
summarizers, the meeting aggregator, the pager, the fetch/merge logic of
the member page and the written-question sorting are embedded as Lean
functions, translated from the JavaScript sources, and the documented
properties are proved about them.
-/

namespace Visualization

/-! ### Character classes used by the JavaScript regexes -/

/-- Characters matched by the JavaScript regex class \s
(whitespace, including the full-width space U+3000). -/
def jsWhitespace (c : Char) : Bool :=
  c = ' ' || c = '\t' || c = '\n' || c = '\r' ||
  c = Char.ofNat 0x0b || c = Char.ofNat 0x0c ||
  c = Char.ofNat 0xa0 || c = Char.ofNat 0x1680 ||
  (0x2000 ≤ c.toNat && c.toNat ≤ 0x200a) ||
  c = Char.ofNat 0x2028 || c = Char.ofNat 0x2029 ||
  c = Char.ofNat 0x202f || c = Char.ofNat 0x205f ||
  c = Char.ofNat 0x3000 || c = Char.ofNat 0xfeff

/-- JavaScript line terminators: with the m flag, ^ matches right after
any of these. -/
def lineTerm (c : Char) : Bool :=
  c = '\n' || c = '\r' || c = Char.ofNat 0x2028 || c = Char.ofNat 0x2029

/-- The full-width (ideographic) space U+3000. -/
def fullWidthSpace : Char := Char.ofNat 0x3000

/-- The speaker marker character ○ (U+25CB). -/
def circleMark : Char := Char.ofNat 0x25cb

/-- The ellipsis character … appended on truncation. -/
def ellipsisChar : Char := Char.ofNat 0x2026

/-- The Japanese period 。 (U+3002) used as sentence delimiter. -/
def kuten : Char := Char.ofNat 0x3002

/-- Characters allowed in the speaker name of a marker: the regex class
[^　 ] (anything except the full-width space and the ASCII space). -/
def nameChar (c : Char) : Bool :=
  !(c = fullWidthSpace || c = ' ')

/-- Whether the head of the list is a name character. -/
def headIsName : List Char → Bool
  | [] => false
  | d :: _ => nameChar d

/-! ### Text summarizer pipeline

`text.replace(/^○[^　 ]+　?/gm, "").replace(/\s+/g, " ").trim()`,
shared verbatim by the member page and the single-table view. -/

/-- One pass of text.replace(/^○[^　 ]+　?/gm, "").  When `eating` is
true the scan is inside the greedy [^　 ]+ run of a match being removed;
otherwise `atStart` records whether the current position is at the start
of a line (position 0 or just after a line terminator). -/
def stripAux : Bool → Bool → List Char → List Char
  | _, _, [] => []
  | true, _, c :: rest =>
    if nameChar c then stripAux true false rest
    else if c = fullWidthSpace then stripAux false false rest
    else c :: stripAux false (lineTerm c) rest
  | false, atStart, c :: rest =>
    if atStart && c = circleMark && headIsName rest then stripAux true false rest
    else c :: stripAux false (lineTerm c) rest

/-- text.replace(/^○[^　 ]+　?/gm, "") over the characters of the text. -/
def stripMarkers (cs : List Char) : List Char := stripAux false true cs

/-- One pass of .replace(/\s+/g, " "): each maximal whitespace run is
replaced by a single ASCII space.  `inRun` records whether the previous
character belonged to a run whose replacement space was already
emitted. -/
def collapseAux : Bool → List Char → List Char
  | _, [] => []
  | inRun, c :: rest =>
    if jsWhitespace c then
      if inRun then collapseAux true rest else ' ' :: collapseAux true rest
    else c :: collapseAux false rest

/-- .replace(/\s+/g, " ") over the characters of the text. -/
def collapseWs (cs : List Char) : List Char := collapseAux false cs

/-- String.prototype.trim(): drop whitespace from both ends. -/
def jsTrim (cs : List Char) : List Char :=
  ((cs.dropWhile jsWhitespace).reverse.dropWhile jsWhitespace).reverse

/-- The cleaned text shared by both summarizers: strip line-start
speaker markers, collapse whitespace runs, trim. -/
def cleanText (s : String) : List Char :=
  jsTrim (collapseWs (stripMarkers s.data))

/-- extractSummary of the member page: cleaned text truncated to 100
characters with an ellipsis appended when truncation happened; a falsy
(absent or empty) input yields the empty string. -/
def extractSummary (text : Option String) : String :=
  match text with
  | none => ""
  | some s =>
    if s = "" then ""
    else
      let clean := cleanText s
      String.mk (clean.take 100 ++ (if 100 < clean.length then [ellipsisChar] else []))

/-- Scan deciding whether the marker pattern — ○ followed by at least one
name character, at the start of a line — occurs anywhere in the list;
`atStart` tells whether the first position starts a line. -/
def markerScan : Bool → List Char → Bool
  | _, [] => false
  | atStart, c :: rest =>
    (atStart && c = circleMark && headIsName rest) || markerScan (lineTerm c) rest

/-- Whether the marker pattern occurs at the start of some line of `s`. -/
def hasStartOfLineMarker (s : String) : Bool := markerScan true s.data

/-! ### Sentence-variant summarizer (hino.js) -/

/-- JavaScript String.prototype.split with a one-character separator. -/
def splitChar (sep : Char) : List Char → List (List Char)
  | [] => [[]]
  | c :: rest =>
    match splitChar sep rest with
    | [] => [[]]
    | h :: t => if c = sep then [] :: h :: t else (c :: h) :: t

namespace Hino

/-- extractSummary of the single-table view: after the same cleanup,
split on 。, drop empty segments, keep the first two, re-join with 。 and
a trailing 。; when no nonempty segment exists the cleaned text itself is
returned; the result is trimmed. -/
def extractSummary (text : Option String) : String :=
  match text with
  | none => ""
  | some s =>
    if s = "" then ""
    else
      let clean := cleanText s
      let parts := (splitChar kuten clean).filter (fun p => !p.isEmpty)
      let firstTwo := List.intercalate [kuten] (parts.take 2)
      String.mk (jsTrim (if !firstTwo.isEmpty then firstTwo ++ [kuten] else clean))

/-- Modelled from the spec sentence for the sentence-variant summarizer,
read literally: after the cleanup, the output is exactly the first two
sentence-delimited segments of the cleaned text, split on the Japanese
period 。 and re-joined with a trailing 。 (nothing when there is no
segment), with no character truncation. -/
def summarySpec (text : Option String) : String :=
  match text with
  | none => ""
  | some s =>
    if s = "" then ""
    else
      let clean := cleanText s
      let parts := (splitChar kuten clean).filter (fun p => !p.isEmpty)
      String.mk
        (List.intercalate [kuten] (parts.take 2) ++
          (if !parts.isEmpty then [kuten] else []))

/-- The amended description: the first two nonempty sentence segments
re-joined with a trailing 。 and trimmed; when the cleaned text has no
nonempty segment (it consists only of 。 characters or is empty) the
cleaned text itself is returned; no character truncation anywhere. -/
def summarySpecAmended (text : Option String) : String :=
  match text with
  | none => ""
  | some s =>
    if s = "" then ""
    else
      let clean := cleanText s
      let parts := (splitChar kuten clean).filter (fun p => !p.isEmpty)
      if parts.isEmpty then String.mk (jsTrim clean)
      else String.mk (jsTrim (List.intercalate [kuten] (parts.take 2) ++ [kuten]))

end Hino

/-! ### Data model -/

/-- One speech record of the flat payload shape. -/
structure SpeechRecord where
  date : Option String
  nameOfMeeting : Option String
  issue : Option String
  issueID : Option String
  session : Option Int
  speechOrder : Option Int
  speech : Option String
deriving DecidableEq

/-- JavaScript template-literal interpolation of a possibly-undefined
string field. -/
def jsTemplate : Option String → String
  | none => "undefined"
  | some s => s

/-- The composite key date_meetingName_issue. -/
def compositeKey (r : SpeechRecord) : String :=
  jsTemplate r.date ++ "_" ++ jsTemplate r.nameOfMeeting ++ "_" ++ jsTemplate r.issue

/-- record.issueID || composite: in JavaScript both an absent and an
empty issueID are falsy and fall back to the composite key. -/
def recordKey (r : SpeechRecord) : String :=
  match r.issueID with
  | none => compositeKey r
  | some i => if i = "" then compositeKey r else i

/-- One aggregated meeting of the member page. -/
structure MeetingGroup where
  date : String
  meetingName : String
  issue : String
  session : Option Int
  speeches : List SpeechRecord
deriving DecidableEq

/-- The group freshly created for a record whose key is new. -/
def newGroup (r : SpeechRecord) : MeetingGroup :=
  { date := r.date.getD ""
    meetingName := r.nameOfMeeting.getD "会議名不明"
    issue := r.issue.getD ""
    session := r.session
    speeches := [r] }

/-- One step of groupByMeeting: the insertion-ordered key map, as an
association list; a record with a known key is appended to that group's
speeches, a new key is appended at the end of the map. -/
def insertRecord : List (String × MeetingGroup) → SpeechRecord → List (String × MeetingGroup)
  | [], r => [(recordKey r, newGroup r)]
  | (k, g) :: rest, r =>
    if k = recordKey r then (k, { g with speeches := g.speeches ++ [r] }) :: rest
    else (k, g) :: insertRecord rest r

/-- The key → group map built by groupByMeeting's forEach,
in insertion order. -/
def groupPairs (records : List SpeechRecord) : List (String × MeetingGroup) :=
  records.foldl insertRecord []

/-- The sort comparator (a, b) => (b.date || "").localeCompare(a.date || "")
as a relation: a may precede b when b's date is ≤ a's date. -/
def dateDescRel (a b : MeetingGroup) : Prop := b.date ≤ a.date

instance : DecidableRel dateDescRel :=
  fun a b => inferInstanceAs (Decidable (b.date ≤ a.date))

instance : IsTotal MeetingGroup dateDescRel :=
  ⟨fun a b => le_total b.date a.date⟩

instance : IsTrans MeetingGroup dateDescRel :=
  ⟨fun _ _ _ h1 h2 => le_trans h2 h1⟩

/-- groupByMeeting: build the key map, then sort the groups by date
descending. -/
def groupByMeeting (records : List SpeechRecord) : List MeetingGroup :=
  List.insertionSort dateDescRel ((groupPairs records).map Prod.snd)

/-- A meeting of the pre-grouped payload shape, fields possibly absent. -/
structure RawMeeting where
  date : Option String
  meetingName : Option String
  issue : Option String
  session : Option Int
  speeches : Option (List SpeechRecord)
deriving DecidableEq

/-- Date-descending comparator on pre-grouped meetings, an absent date
comparing as the empty string. -/
def rawDateDescRel (a b : RawMeeting) : Prop := b.date.getD "" ≤ a.date.getD ""

instance : DecidableRel rawDateDescRel :=
  fun a b => inferInstanceAs (Decidable (b.date.getD "" ≤ a.date.getD ""))

instance : IsTotal RawMeeting rawDateDescRel :=
  ⟨fun a b => le_total (b.date.getD "") (a.date.getD "")⟩

instance : IsTrans RawMeeting rawDateDescRel :=
  ⟨fun _ _ _ h1 h2 => le_trans h2 h1⟩

/-- The pre-grouped branch of render: default each meeting's speeches to
the empty list, then sort by date descending. -/
def displayMeetings (ms : List RawMeeting) : List RawMeeting :=
  List.insertionSort rawDateDescRel
    (ms.map (fun m => { m with speeches := some (m.speeches.getD []) }))

/-! ### Pager -/

def PAGE_SIZE : Nat := 5

/-- The page state: the aggregated groups and how many are shown. -/
structure PageState where
  total : List MeetingGroup
  visibleCount : Nat
deriving DecidableEq

/-- visibleCount = Math.min(PAGE_SIZE, meetingGroups.length), run at
every (re-)render of a dataset. -/
def pagerReset (groups : List MeetingGroup) : PageState :=
  { total := groups, visibleCount := min PAGE_SIZE groups.length }

/-- The load-more click handler:
visibleCount = Math.min(visibleCount + PAGE_SIZE, meetingGroups.length). -/
def pagerAdvance (st : PageState) : PageState :=
  { st with visibleCount := min (st.visibleCount + PAGE_SIZE) st.total.length }

/-- hasMore = visibleCount < meetingGroups.length. -/
def hasMore (st : PageState) : Bool :=
  decide (st.visibleCount < st.total.length)

/-- The pager states reachable for a fixed dataset: the reset state and
everything obtained from it by advancing. -/
inductive PagerReachable (groups : List MeetingGroup) : PageState → Prop where
  | reset : PagerReachable groups (pagerReset groups)
  | advance {st : PageState} :
      PagerReachable groups st → PagerReachable groups (pagerAdvance st)

/-- updateLoadMoreButton of the merged member page: the button's hidden
flag; a dataset of at most one page hides the button outright. -/
def updateLoadMoreButton (st : PageState) : Bool :=
  if st.total.length ≤ PAGE_SIZE then true else !(hasMore st)

/-- updateLoadMoreButton of the earlier member page revision: hidden
exactly when there is no more to show. -/
def updateLoadMoreButtonV1 (st : PageState) : Bool := !(hasMore st)

/-! ### Fetch, profile merge and fallback -/

/-- A roster entry (only the fields the member page reads). -/
structure MemberProfile where
  slug : Option String
  member_name : Option String
  disability_league_count : Option Int
  disability_leagues : Option (List String)
deriving DecidableEq

/-- The roster payload: a plain array or a { members: [...] } wrapper. -/
inductive RosterPayload where
  | arr (l : List MemberProfile)
  | wrapped (members : Option (List MemberProfile))
deriving DecidableEq

/-- Array.isArray(payload) ? payload : payload.members ?? []. -/
def rosterList : RosterPayload → List MemberProfile
  | .arr l => l
  | .wrapped m => m.getD []

/-- A written question (only the fields the sorting and rendering read). -/
structure WrittenQuestion where
  title : Option String
  session : Option Int
  number : Option Int
  status : Option String
deriving DecidableEq

/-- The object shape of the per-member payload. -/
structure SpeechPayloadObj where
  member_name : Option String
  meetings : Option (List RawMeeting)
  written_questions : Option (List WrittenQuestion)
deriving DecidableEq

/-- The per-member speech payload: flat array or object shape. -/
inductive SpeechPayload where
  | flat (records : List SpeechRecord)
  | obj (o : SpeechPayloadObj)
deriving DecidableEq

/-- The outcome of one fetch: a network rejection, or a response with an
HTTP status and an already-parsed body. -/
inductive FetchResult (α : Type) where
  | network
  | resp (status : Nat) (body : α)
deriving DecidableEq

/-- Response.ok: status in the inclusive range 200–299. -/
def jsOk (status : Nat) : Bool := 200 ≤ status && status ≤ 299

/-- What the page does after loadData finishes. -/
inductive PageOutcome where
  | noSlug
  | errorNetwork
  | errorHttp (status : Nat)
  | fallback (profile : Option MemberProfile)
  | rendered (payload : SpeechPayload) (profile : Option MemberProfile)
deriving DecidableEq

/-- The roster half of loadData: a caught network failure or a non-OK
status collapses to no profile, otherwise the first entry with the
requested slug is looked up. -/
def findProfile (slugStr : String) (res : FetchResult RosterPayload) :
    Option MemberProfile :=
  match res with
  | .network => none
  | .resp st body =>
    if jsOk st then (rosterList body).find? (fun e => decide (e.slug = some slugStr))
    else none

/-- loadData of the member page, as a function of the two fetch
outcomes: no slug short-circuits; a speech-fetch rejection is an error
(the roster fetch's rejection is caught separately); speech 404 goes to
the fallback path with whatever profile was found; any other non-OK
speech status is an error; otherwise the page renders. -/
def loadData (slug : Option String) (speechRes : FetchResult SpeechPayload)
    (rosterRes : FetchResult RosterPayload) : PageOutcome :=
  match slug with
  | none => .noSlug
  | some slugStr =>
    match speechRes with
    | .network => .errorNetwork
    | .resp st payload =>
      let memberProfile := findProfile slugStr rosterRes
      if st = 404 then .fallback memberProfile
      else if !(jsOk st) then .errorHttp st
      else .rendered payload memberProfile

/-- What renderFallback puts on the page. -/
structure FallbackView where
  memberName : String
  metaText : String
  leagues : List String
  questionsHidden : Bool
  summaryMessage : String
  loadMoreHidden : Bool
deriving DecidableEq

/-- The placeholder shown when a member has no registered speech data. -/
def notRegisteredMessage : String :=
  "この議員の障害福祉関連発言データはまだ登録されていません。"

/-- renderFallback: name and league list fall back through the profile
to the slug, the questions section is hidden, the summary region shows
the not-yet-registered placeholder, the load-more button is hidden. -/
def renderFallback (slugStr : String) (profile : Option MemberProfile) :
    FallbackView :=
  { memberName := (profile.bind (fun p => p.member_name)).getD slugStr
    metaText :=
      match profile.bind (fun p => p.disability_league_count) with
      | some n => "議連: " ++ toString n
      | none => "国会発言データが未登録です。"
    leagues := (profile.bind (fun p => p.disability_leagues)).getD []
    questionsHidden := true
    summaryMessage := notRegisteredMessage
    loadMoreHidden := true }

/-! ### Written-question sorting -/

/-- The comparator of renderWrittenQuestions:
(b.session ?? 0) - (a.session ?? 0), ties broken by
(b.number ?? 0) - (a.number ?? 0). -/
def questionCompare (a b : WrittenQuestion) : Int :=
  let sessionDiff := b.session.getD 0 - a.session.getD 0
  if sessionDiff ≠ 0 then sessionDiff else b.number.getD 0 - a.number.getD 0

/-- a may precede b when the comparator is ≤ 0. -/
def questionDescRel (a b : WrittenQuestion) : Prop := questionCompare a b ≤ 0

instance : DecidableRel questionDescRel :=
  fun a b => inferInstanceAs (Decidable (questionCompare a b ≤ 0))

/-- renderWrittenQuestions: an empty list shows a placeholder (no list),
otherwise the questions are sorted with the comparator and rendered in
that order. -/
def renderWrittenQuestions (l : List WrittenQuestion) :
    Option (List WrittenQuestion) :=
  if l.isEmpty then none else some (List.insertionSort questionDescRel l)

/-- A concrete meeting group used to instantiate witnesses. -/
def defaultGroup : MeetingGroup :=
  { date := "2024-01-10", meetingName := "本会議", issue := "第1号"
    session := some 213, speeches := [] }

/-- A concrete roster profile used to instantiate witnesses. -/
def sampleProfile : MemberProfile :=
  { slug := some "yamada-taro", member_name := some "山田太郎"
    disability_league_count := some 2
    disability_leagues := some ["障害児者問題を考える議員連盟"] }

/-! ### Pager theorems -/

theorem PagerReachable.total_eq {groups : List MeetingGroup} {st : PageState}
    (h : PagerReachable groups st) : st.total = groups := by
  induction h with
  | reset => rfl
  | advance _ ih => exact ih

theorem PagerReachable.visible_le {groups : List MeetingGroup} {st : PageState}
    (h : PagerReachable groups st) : st.visibleCount ≤ st.total.length := by
  induction h with
  | reset => exact Nat.min_le_right _ _
  | advance _ _ => exact Nat.min_le_right _ _

theorem PagerReachable.min_le_visible {groups : List MeetingGroup} {st : PageState}
    (h : PagerReachable groups st) :
    min PAGE_SIZE groups.length ≤ st.visibleCount := by
  induction h with
  | reset => exact Nat.le_refl _
  | advance h ih =>
    have ht := h.total_eq
    show min PAGE_SIZE groups.length ≤ min (_ + PAGE_SIZE) _
    rw [ht]
    omega

/-- Claim C3: with page size 5, reset sets visibleCount to
min(5, length), advance sets it to min(visibleCount + 5, length),
hasMore holds exactly when visibleCount < length, and on a 12-element
dataset the visible counts run 5 → 10 → 12 with hasMore
true → true → false. -/
theorem pager_spec (groups : List MeetingGroup) (h : groups.length = 12) :
    (∀ gs : List MeetingGroup,
        (pagerReset gs).visibleCount = min 5 gs.length) ∧
    (∀ st : PageState,
        (pagerAdvance st).visibleCount = min (st.visibleCount + 5) st.total.length) ∧
    (∀ st : PageState, hasMore st = true ↔ st.visibleCount < st.total.length) ∧
    ((pagerReset groups).visibleCount = 5 ∧
     hasMore (pagerReset groups) = true ∧
     (pagerAdvance (pagerReset groups)).visibleCount = 10 ∧
     hasMore (pagerAdvance (pagerReset groups)) = true ∧
     (pagerAdvance (pagerAdvance (pagerReset groups))).visibleCount = 12 ∧
     hasMore (pagerAdvance (pagerAdvance (pagerReset groups))) = false) := by
  refine ⟨fun gs => rfl, fun st => rfl, fun st => by simp [hasMore], ?_⟩
  refine ⟨?_, ?_, ?_, ?_, ?_, ?_⟩ <;>
    simp [pagerReset, pagerAdvance, hasMore, PAGE_SIZE, h]

theorem pager_spec_witness :
    (List.replicate 12 defaultGroup).length = 12 ∧
    ((pagerReset (List.replicate 12 defaultGroup)).visibleCount = 5 ∧
     hasMore (pagerReset (List.replicate 12 defaultGroup)) = true ∧
     (pagerAdvance (pagerReset (List.replicate 12 defaultGroup))).visibleCount = 10 ∧
     hasMore (pagerAdvance (pagerReset (List.replicate 12 defaultGroup))) = true ∧
     (pagerAdvance (pagerAdvance (pagerReset (List.replicate 12 defaultGroup)))).visibleCount
       = 12 ∧
     hasMore
       (pagerAdvance (pagerAdvance (pagerReset (List.replicate 12 defaultGroup)))) = false) :=
  ⟨by simp, (pager_spec (List.replicate 12 defaultGroup) (by simp)).2.2.2⟩

/-- Claim C4: in every reachable pager state where hasMore is false,
advance leaves the state unchanged, and so does every number of further
repeated advances. -/
theorem pager_advance_idempotent {groups : List MeetingGroup} {st : PageState}
    (h : PagerReachable groups st) (hm : hasMore st = false) :
    pagerAdvance st = st ∧ ∀ n : Nat, pagerAdvance^[n] st = st := by
  have hle := h.visible_le
  have hv : st.visibleCount = st.total.length := by
    have hnot : ¬ st.visibleCount < st.total.length := by
      simpa [hasMore] using hm
    omega
  have hadv : pagerAdvance st = st := by
    cases st with
    | mk total v =>
      simp only [pagerAdvance, PageState.mk.injEq, true_and]
      simp only at hv
      rw [hv]
      simp [PAGE_SIZE]
  refine ⟨hadv, fun n => ?_⟩
  induction n with
  | zero => rfl
  | succ n ih => rw [Function.iterate_succ_apply', ih, hadv]

theorem pager_advance_idempotent_witness :
    hasMore (pagerReset []) = false ∧ pagerAdvance (pagerReset []) = pagerReset [] :=
  ⟨by decide, (pager_advance_idempotent PagerReachable.reset (by decide)).1⟩

/-- Claim C9: when the dataset has at most one page of groups, the
load-more button is hidden in the reset state and in every reachable
state after any number of advances, in both revisions of
updateLoadMoreButton. -/
theorem load_more_hidden {groups : List MeetingGroup} {st : PageState}
    (hlen : groups.length ≤ PAGE_SIZE) (h : PagerReachable groups st) :
    updateLoadMoreButton st = true ∧ updateLoadMoreButtonV1 st = true := by
  have ht := h.total_eq
  have hle := h.visible_le
  have hge := h.min_le_visible
  rw [ht] at hle
  have hv : st.visibleCount = groups.length := by omega
  constructor
  · simp [updateLoadMoreButton, hasMore, ht, hv, hlen]
  · simp [updateLoadMoreButtonV1, hasMore, ht, hv]

theorem load_more_hidden_witness :
    (List.replicate 3 defaultGroup).length ≤ PAGE_SIZE ∧
    updateLoadMoreButton (pagerReset (List.replicate 3 defaultGroup)) = true ∧
    updateLoadMoreButtonV1 (pagerReset (List.replicate 3 defaultGroup)) = true :=
  ⟨by decide,
   (load_more_hidden (by decide) PagerReachable.reset).1,
   (load_more_hidden (by decide) PagerReachable.reset).2⟩

/-! ### Fetch and fallback theorems -/

/-- Claim C7: when the speech fetch succeeds with an OK status and the
roster fetch fails — network rejection or non-OK status — the page
renders the speech data with no profile, and no error outcome is
produced. -/
theorem roster_failure_degrades (slugStr : String) (st : Nat)
    (payload : SpeechPayload) (rosterRes : FetchResult RosterPayload)
    (hok : jsOk st = true)
    (hfail : rosterRes = FetchResult.network ∨
      ∃ rst body, rosterRes = FetchResult.resp rst body ∧ jsOk rst = false) :
    loadData (some slugStr) (FetchResult.resp st payload) rosterRes =
      PageOutcome.rendered payload none ∧
    (∀ s, loadData (some slugStr) (FetchResult.resp st payload) rosterRes ≠
      PageOutcome.errorHttp s) ∧
    loadData (some slugStr) (FetchResult.resp st payload) rosterRes ≠
      PageOutcome.errorNetwork := by
  have hprof : findProfile slugStr rosterRes = none := by
    rcases hfail with hnet | ⟨rst, body, hresp, hb⟩
    · rw [hnet]; rfl
    · rw [hresp]; simp [findProfile, hb]
  have h404 : st ≠ 404 := by
    intro he
    rw [he] at hok
    exact absurd hok (by decide)
  refine ⟨?_, ?_, ?_⟩ <;> simp [loadData, hprof, h404, hok]

theorem roster_failure_degrades_witness :
    jsOk 200 = true ∧ jsOk 500 = false ∧
    loadData (some "yamada-taro") (FetchResult.resp 200 (SpeechPayload.flat []))
        (FetchResult.resp 500 (RosterPayload.arr [sampleProfile])) =
      PageOutcome.rendered (SpeechPayload.flat []) none :=
  ⟨by decide, by decide,
   (roster_failure_degrades "yamada-taro" 200 (SpeechPayload.flat [])
      (FetchResult.resp 500 (RosterPayload.arr [sampleProfile])) (by decide)
      (Or.inr ⟨500, RosterPayload.arr [sampleProfile], rfl, by decide⟩)).1⟩

/-- Claim C8: when the speech fetch returns 404 and the roster fetch
succeeds with an entry carrying the requested slug, the page takes the
fallback path with that profile: the not-yet-registered placeholder and
the profile's disability-league list are shown, and no error outcome is
produced. -/
theorem speech_404_fallback (slugStr : String) (payload : SpeechPayload)
    (rst : Nat) (body : RosterPayload)
    (hok : jsOk rst = true)
    (hmem : ∃ e ∈ rosterList body, e.slug = some slugStr) :
    ∃ p : MemberProfile,
      loadData (some slugStr) (FetchResult.resp 404 payload)
        (FetchResult.resp rst body) = PageOutcome.fallback (some p) ∧
      p.slug = some slugStr ∧
      (renderFallback slugStr (some p)).summaryMessage = notRegisteredMessage ∧
      (renderFallback slugStr (some p)).leagues = p.disability_leagues.getD [] ∧
      (renderFallback slugStr (some p)).questionsHidden = true ∧
      (∀ s, loadData (some slugStr) (FetchResult.resp 404 payload)
        (FetchResult.resp rst body) ≠ PageOutcome.errorHttp s) ∧
      loadData (some slugStr) (FetchResult.resp 404 payload)
        (FetchResult.resp rst body) ≠ PageOutcome.errorNetwork := by
  obtain ⟨e, he, hes⟩ := hmem
  have hsome : ((rosterList body).find?
      (fun x => decide (x.slug = some slugStr))).isSome := by
    rw [List.find?_isSome]
    exact ⟨e, he, by simpa using hes⟩
  obtain ⟨p, hp⟩ := Option.isSome_iff_exists.mp hsome
  have hps : p.slug = some slugStr := by
    have := List.find?_some hp
    simpa using this
  refine ⟨p, ?_, hps, rfl, rfl, rfl, ?_, ?_⟩ <;>
    simp [loadData, findProfile, hok, hp]

theorem speech_404_fallback_witness :
    jsOk 200 = true ∧
    (∃ e ∈ rosterList (RosterPayload.arr [sampleProfile]),
      e.slug = some "yamada-taro") ∧
    ∃ p : MemberProfile,
      loadData (some "yamada-taro")
        (FetchResult.resp 404 (SpeechPayload.flat []))
        (FetchResult.resp 200 (RosterPayload.arr [sampleProfile])) =
        PageOutcome.fallback (some p) ∧
      p.slug = some "yamada-taro" ∧
      (renderFallback "yamada-taro" (some p)).summaryMessage = notRegisteredMessage ∧
      (renderFallback "yamada-taro" (some p)).leagues = p.disability_leagues.getD [] ∧
      (renderFallback "yamada-taro" (some p)).questionsHidden = true ∧
      (∀ s, loadData (some "yamada-taro")
        (FetchResult.resp 404 (SpeechPayload.flat []))
        (FetchResult.resp 200 (RosterPayload.arr [sampleProfile])) ≠
          PageOutcome.errorHttp s) ∧
      loadData (some "yamada-taro")
        (FetchResult.resp 404 (SpeechPayload.flat []))
        (FetchResult.resp 200 (RosterPayload.arr [sampleProfile])) ≠
          PageOutcome.errorNetwork :=
  ⟨by decide, by decide,
   speech_404_fallback "yamada-taro" (SpeechPayload.flat []) 200
     (RosterPayload.arr [sampleProfile]) (by decide) (by decide)⟩

/-! ### Sorting theorems -/

theorem questionDescRel_iff (a b : WrittenQuestion) :
    questionDescRel a b ↔
      (b.session.getD 0 < a.session.getD 0 ∨
       (b.session.getD 0 = a.session.getD 0 ∧ b.number.getD 0 ≤ a.number.getD 0)) := by
  simp only [questionDescRel, questionCompare]
  split <;> omega

instance : IsTotal WrittenQuestion questionDescRel :=
  ⟨fun a b => by rw [questionDescRel_iff, questionDescRel_iff]; omega⟩

instance : IsTrans WrittenQuestion questionDescRel :=
  ⟨fun a b c hab hbc => by
    rw [questionDescRel_iff] at hab hbc ⊢
    omega⟩

/-- Claim C10: a non-empty question list is rendered sorted by session
descending, ties broken by number descending, missing session or number
reading as 0; the rendered list is a permutation of the input. -/
theorem written_questions_sorted (l : List WrittenQuestion) (h : l ≠ []) :
    ∃ out, renderWrittenQuestions l = some out ∧
      out.Perm l ∧
      List.Chain'
        (fun a b =>
          b.session.getD 0 < a.session.getD 0 ∨
          (b.session.getD 0 = a.session.getD 0 ∧
           b.number.getD 0 ≤ a.number.getD 0)) out := by
  refine ⟨List.insertionSort questionDescRel l, ?_,
    List.perm_insertionSort _ _, ?_⟩
  · simp [renderWrittenQuestions, h]
  · have hs : List.Pairwise questionDescRel
        (List.insertionSort questionDescRel l) :=
      List.sorted_insertionSort questionDescRel l
    exact (hs.imp fun hab => (questionDescRel_iff _ _).mp hab).chain'

theorem written_questions_sorted_witness :
    ([{ title := some "濃厚接触者に関する質問主意書", session := some 208,
        number := some 1, status := none },
      { title := some "障害福祉に関する質問主意書", session := some 213,
        number := some 2, status := none }] : List WrittenQuestion) ≠ [] ∧
    ∃ out,
      renderWrittenQuestions
        [{ title := some "濃厚接触者に関する質問主意書", session := some 208,
           number := some 1, status := none },
         { title := some "障害福祉に関する質問主意書", session := some 213,
           number := some 2, status := none }] = some out ∧
      out.Perm
        [{ title := some "濃厚接触者に関する質問主意書", session := some 208,
           number := some 1, status := none },
         { title := some "障害福祉に関する質問主意書", session := some 213,
           number := some 2, status := none }] ∧
      List.Chain'
        (fun a b =>
          b.session.getD 0 < a.session.getD 0 ∨
          (b.session.getD 0 = a.session.getD 0 ∧
           b.number.getD 0 ≤ a.number.getD 0)) out :=
  ⟨by decide, written_questions_sorted _ (by decide)⟩

/-- Claim C2: both display paths — aggregation of a flat record list and
normalization of a pre-grouped payload — emit their groups sorted by
date descending under string comparison, an absent date reading as the
empty string (which therefore sorts last). -/
theorem display_sorted_by_date_desc :
    (∀ records : List SpeechRecord,
      List.Chain' (fun a b => b.date ≤ a.date) (groupByMeeting records)) ∧
    (∀ meetings : List RawMeeting,
      List.Chain' (fun a b => b.date.getD "" ≤ a.date.getD "")
        (displayMeetings meetings)) := by
  constructor
  · intro records
    have hs : List.Pairwise dateDescRel (groupByMeeting records) :=
      List.sorted_insertionSort dateDescRel _
    exact hs.chain'
  · intro meetings
    have hs : List.Pairwise rawDateDescRel (displayMeetings meetings) :=
      List.sorted_insertionSort rawDateDescRel _
    exact hs.chain'

/-! ### Aggregation (groupByMeeting) theorems -/

theorem insertRecord_keys (ps : List (String × MeetingGroup)) (r : SpeechRecord) :
    (insertRecord ps r).map Prod.fst =
      if recordKey r ∈ ps.map Prod.fst then ps.map Prod.fst
      else ps.map Prod.fst ++ [recordKey r] := by
  induction ps with
  | nil => simp [insertRecord]
  | cons p rest ih =>
    obtain ⟨k, g⟩ := p
    by_cases hk : k = recordKey r
    · subst hk
      simp [insertRecord]
    · have hne : ¬ recordKey r = k := fun he => hk he.symm
      by_cases hm : recordKey r ∈ rest.map Prod.fst <;>
        simp [insertRecord, hk, hne, hm, ih]

theorem insertRecord_keys_mem (ps : List (String × MeetingGroup))
    (r : SpeechRecord) (k' : String) :
    k' ∈ (insertRecord ps r).map Prod.fst ↔
      k' ∈ ps.map Prod.fst ∨ k' = recordKey r := by
  rw [insertRecord_keys]
  by_cases hm : recordKey r ∈ ps.map Prod.fst
  · simp only [hm, if_true]
    exact ⟨Or.inl, fun h => h.elim id fun he => he ▸ hm⟩
  · simp [hm]

theorem insertRecord_keys_nodup {ps : List (String × MeetingGroup)}
    (r : SpeechRecord) (h : (ps.map Prod.fst).Nodup) :
    ((insertRecord ps r).map Prod.fst).Nodup := by
  rw [insertRecord_keys]
  by_cases hm : recordKey r ∈ ps.map Prod.fst
  · simpa [hm]
  · simp [hm, List.nodup_append, h]

theorem insertRecord_consistent {ps : List (String × MeetingGroup)}
    {r : SpeechRecord}
    (h : ∀ p ∈ ps, ∀ x ∈ p.2.speeches, recordKey x = p.1) :
    ∀ p ∈ insertRecord ps r, ∀ x ∈ p.2.speeches, recordKey x = p.1 := by
  induction ps with
  | nil =>
    intro p hp x hx
    simp only [insertRecord, List.mem_singleton] at hp
    subst hp
    simp only [newGroup, List.mem_singleton] at hx
    subst hx
    rfl
  | cons q rest ih =>
    obtain ⟨k, g⟩ := q
    by_cases hk : k = recordKey r
    · intro p hp x hx
      rw [insertRecord, if_pos hk] at hp
      rcases List.mem_cons.mp hp with hp | hp
      · subst hp
        simp only at hx
        rcases List.mem_append.mp hx with hx | hx
        · exact h (k, g) (List.mem_cons_self _ _) x hx
        · rw [List.mem_singleton.mp hx, hk]
      · exact h p (List.mem_cons_of_mem _ hp) x hx
    · intro p hp x hx
      rw [insertRecord, if_neg hk] at hp
      rcases List.mem_cons.mp hp with hp | hp
      · subst hp
        exact h (k, g) (List.mem_cons_self _ _) x hx
      · exact ih (fun p hp => h p (List.mem_cons_of_mem _ hp)) p hp x hx

/-- The total number of speeches stored in the key map. -/
def speechCount (ps : List (String × MeetingGroup)) : Nat :=
  (ps.map fun p => p.2.speeches.length).sum

theorem insertRecord_count (ps : List (String × MeetingGroup))
    (r : SpeechRecord) : speechCount (insertRecord ps r) = speechCount ps + 1 := by
  induction ps with
  | nil => simp [insertRecord, speechCount, newGroup]
  | cons q rest ih =>
    obtain ⟨k, g⟩ := q
    by_cases hk : k = recordKey r
    · simp only [insertRecord, hk, if_true, speechCount, List.map_cons,
        List.sum_cons, List.length_append, List.length_singleton]
      omega
    · simp only [insertRecord, hk, if_false, speechCount, List.map_cons,
        List.sum_cons]
      have hih := ih
      simp only [speechCount] at hih
      omega

theorem groupPairs_go_nodup (records : List SpeechRecord)
    (ps : List (String × MeetingGroup)) (h : (ps.map Prod.fst).Nodup) :
    ((records.foldl insertRecord ps).map Prod.fst).Nodup := by
  induction records generalizing ps with
  | nil => exact h
  | cons r rest ih => exact ih _ (insertRecord_keys_nodup r h)

theorem groupPairs_go_mem (records : List SpeechRecord)
    (ps : List (String × MeetingGroup)) (k : String) :
    k ∈ (records.foldl insertRecord ps).map Prod.fst ↔
      k ∈ ps.map Prod.fst ∨ ∃ r ∈ records, recordKey r = k := by
  induction records generalizing ps with
  | nil => simp
  | cons r rest ih =>
    rw [List.foldl_cons, ih, insertRecord_keys_mem]
    constructor
    · rintro ((h | h) | ⟨r', hr', hk⟩)
      · exact Or.inl h
      · exact Or.inr ⟨r, List.mem_cons_self _ _, h.symm⟩
      · exact Or.inr ⟨r', List.mem_cons_of_mem _ hr', hk⟩
    · rintro (h | ⟨r', hr', hk⟩)
      · exact Or.inl (Or.inl h)
      · rcases List.mem_cons.mp hr' with he | hr'
        · exact Or.inl (Or.inr (he ▸ hk.symm))
        · exact Or.inr ⟨r', hr', hk⟩

theorem groupPairs_go_consistent (records : List SpeechRecord)
    (ps : List (String × MeetingGroup))
    (h : ∀ p ∈ ps, ∀ x ∈ p.2.speeches, recordKey x = p.1) :
    ∀ p ∈ records.foldl insertRecord ps, ∀ x ∈ p.2.speeches, recordKey x = p.1 := by
  induction records generalizing ps with
  | nil => exact h
  | cons r rest ih => exact ih _ (insertRecord_consistent h)

theorem groupPairs_go_count (records : List SpeechRecord)
    (ps : List (String × MeetingGroup)) :
    speechCount (records.foldl insertRecord ps) = speechCount ps + records.length := by
  induction records generalizing ps with
  | nil => simp
  | cons r rest ih =>
    rw [List.foldl_cons, ih, insertRecord_count, List.length_cons]
    omega

theorem groupPairs_keys_nodup (records : List SpeechRecord) :
    ((groupPairs records).map Prod.fst).Nodup :=
  groupPairs_go_nodup records [] (by simp)

theorem groupPairs_keys_mem (records : List SpeechRecord) (k : String) :
    k ∈ (groupPairs records).map Prod.fst ↔ ∃ r ∈ records, recordKey r = k := by
  rw [groupPairs, groupPairs_go_mem]
  simp

theorem groupPairs_consistent (records : List SpeechRecord) :
    ∀ p ∈ groupPairs records, ∀ x ∈ p.2.speeches, recordKey x = p.1 :=
  groupPairs_go_consistent records [] (by simp)

/-- Claim C1: groupByMeeting partitions the input: group keys are
pairwise distinct, every speech stored in a group carries that group's
key (hence the groups' key sets are mutually exclusive), there is
exactly one group per distinct input key, and the group sizes sum to
the input length. -/
theorem groupByMeeting_partition (records : List SpeechRecord) :
    ((groupPairs records).map Prod.fst).Nodup ∧
    (∀ p ∈ groupPairs records, ∀ x ∈ p.2.speeches, recordKey x = p.1) ∧
    (∀ k, k ∈ (groupPairs records).map Prod.fst ↔ ∃ r ∈ records, recordKey r = k) ∧
    (groupByMeeting records).length = (records.map recordKey).dedup.length ∧
    ((groupByMeeting records).map fun g => g.speeches.length).sum = records.length ∧
    List.Pairwise
      (fun g₁ g₂ => ∀ x₁ ∈ g₁.speeches, ∀ x₂ ∈ g₂.speeches,
        recordKey x₁ ≠ recordKey x₂) (groupByMeeting records) := by
  have hnd := groupPairs_keys_nodup records
  have hmem := groupPairs_keys_mem records
  have hcons := groupPairs_consistent records
  have hsortperm :
      (groupByMeeting records).Perm ((groupPairs records).map Prod.snd) :=
    List.perm_insertionSort _ _
  refine ⟨hnd, hcons, hmem, ?_, ?_, ?_⟩
  · have hperm : ((groupPairs records).map Prod.fst).Perm
        (records.map recordKey).dedup := by
      rw [List.perm_ext_iff_of_nodup hnd (List.nodup_dedup _)]
      intro k
      rw [hmem, List.mem_dedup, List.mem_map]
    calc (groupByMeeting records).length
        = ((groupPairs records).map Prod.snd).length := hsortperm.length_eq
      _ = ((groupPairs records).map Prod.fst).length := by simp
      _ = (records.map recordKey).dedup.length := hperm.length_eq
  · have hc : speechCount (groupPairs records) = records.length := by
      have := groupPairs_go_count records []
      simpa [speechCount] using this
    calc ((groupByMeeting records).map fun g => g.speeches.length).sum
        = (((groupPairs records).map Prod.snd).map fun g => g.speeches.length).sum :=
          (hsortperm.map _).sum_eq
      _ = records.length := by
          rw [List.map_map]
          exact hc
  · have hkeys : List.Pairwise (fun p q : String × MeetingGroup => p.1 ≠ q.1)
        (groupPairs records) := by
      have := hnd
      rwa [List.Nodup, List.pairwise_map] at this
    have hdisj : List.Pairwise
        (fun p q : String × MeetingGroup =>
          ∀ x₁ ∈ p.2.speeches, ∀ x₂ ∈ q.2.speeches,
            recordKey x₁ ≠ recordKey x₂) (groupPairs records) := by
      refine hkeys.imp_of_mem ?_
      intro p q hp hq hne x₁ hx₁ x₂ hx₂
      rw [hcons p hp x₁ hx₁, hcons q hq x₂ hx₂]
      exact hne
    have hmapped : List.Pairwise
        (fun g₁ g₂ : MeetingGroup => ∀ x₁ ∈ g₁.speeches, ∀ x₂ ∈ g₂.speeches,
          recordKey x₁ ≠ recordKey x₂) ((groupPairs records).map Prod.snd) := by
      rw [List.pairwise_map]
      exact hdisj
    have hsymm : ∀ {g₁ g₂ : MeetingGroup},
        (∀ x₁ ∈ g₁.speeches, ∀ x₂ ∈ g₂.speeches, recordKey x₁ ≠ recordKey x₂) →
        (∀ x₁ ∈ g₂.speeches, ∀ x₂ ∈ g₁.speeches, recordKey x₁ ≠ recordKey x₂) :=
      fun h x₁ hx₁ x₂ hx₂ => (h x₂ hx₂ x₁ hx₁).symm
    exact (hsortperm.pairwise_iff hsymm).mpr hmapped

/-! ### Sentence-variant summarizer theorems -/

theorem intercalate_pair_ne_nil {sep a : List Char} {t : List (List Char)}
    (ha : a ≠ []) : List.intercalate sep ((a :: t).take 2) ≠ [] := by
  cases t with
  | nil => simpa [List.intercalate, List.intersperse] using ha
  | cons b t' =>
    simp only [List.take, List.intercalate, List.intersperse]
    simp [ha]

/-- Claim C6 counterexample: on the input consisting of a single
Japanese period, the cleaned text has no sentence segment, yet the
single-table summarizer returns the cleaned text itself rather than the
empty re-join the literal spec reading prescribes. -/
theorem hino_summary_counterexample :
    Hino.extractSummary (some (String.mk [kuten])) ≠
      Hino.summarySpec (some (String.mk [kuten])) := by decide

/-- Claim C6 (amended): the single-table summarizer returns the first
two nonempty sentence segments of the cleaned text re-joined with a
trailing 。 and trimmed; when the cleaned text contains no nonempty
segment it returns the cleaned text itself; no character truncation is
performed anywhere. -/
theorem hino_summary_amended (text : Option String) :
    Hino.extractSummary text = Hino.summarySpecAmended text := by
  cases text with
  | none => rfl
  | some s =>
    by_cases hs : s = ""
    · simp [Hino.extractSummary, Hino.summarySpecAmended, hs]
    · simp only [Hino.extractSummary, Hino.summarySpecAmended, if_neg hs]
      cases hp : (splitChar kuten (cleanText s)).filter (fun p => !p.isEmpty) with
      | nil => simp [hp, List.intercalate, List.intersperse]
      | cons a t =>
        have ha : a ≠ [] := by
          have hmem : a ∈ (splitChar kuten (cleanText s)).filter
              (fun p => !p.isEmpty) := by
            rw [hp]; exact List.mem_cons_self _ _
          have := List.of_mem_filter hmem
          simpa using this
        have hft := @intercalate_pair_ne_nil [kuten] a t ha
        simp only [List.take_succ_cons] at hft
        simp [hp, hft]

/-! ### Character-truncate summarizer theorems -/

/-- No two adjacent whitespace characters. -/
def noDoubleWs (a b : Char) : Prop :=
  ¬(jsWhitespace a = true ∧ jsWhitespace b = true)

theorem jsWhitespace_of_lineTerm {c : Char} (h : lineTerm c = true) :
    jsWhitespace c = true := by
  simp only [lineTerm, Bool.or_eq_true, decide_eq_true_eq] at h
  rcases h with ((h | h) | h) | h <;> subst h <;> decide

theorem markerScan_false_of_no_lineTerm {l : List Char}
    (h : ∀ c ∈ l, lineTerm c = false) : markerScan false l = false := by
  induction l with
  | nil => rfl
  | cons c rest ih =>
    have hc := h c (List.mem_cons_self _ _)
    simp only [markerScan, Bool.false_and, Bool.false_or, hc]
    exact ih fun d hd => h d (List.mem_cons_of_mem _ hd)

theorem collapseAux_mem (b : Bool) (l : List Char) :
    ∀ c ∈ collapseAux b l, jsWhitespace c = true → c = ' ' := by
  induction l generalizing b with
  | nil => simp [collapseAux]
  | cons d rest ih =>
    intro c hc hw
    simp only [collapseAux] at hc
    by_cases hd : jsWhitespace d = true
    · rw [if_pos hd] at hc
      cases b with
      | true => exact ih true c hc hw
      | false =>
        rcases List.mem_cons.mp hc with rfl | hc
        · rfl
        · exact ih true c hc hw
    · rw [if_neg hd] at hc
      rcases List.mem_cons.mp hc with rfl | hc
      · exact absurd hw hd
      · exact ih false c hc hw

theorem collapseAux_true_head (l : List Char) :
    ∀ c, (collapseAux true l).head? = some c → jsWhitespace c = false := by
  induction l with
  | nil => simp [collapseAux]
  | cons d rest ih =>
    intro c hc
    simp only [collapseAux] at hc
    by_cases hd : jsWhitespace d = true
    · rw [if_pos hd] at hc
      exact ih c hc
    · rw [if_neg hd] at hc
      simp only [List.head?_cons, Option.some.injEq] at hc
      rw [← hc]
      exact Bool.not_eq_true _ ▸ Bool.of_not_eq_true hd

theorem collapseAux_chain' (b : Bool) (l : List Char) :
    List.Chain' noDoubleWs (collapseAux b l) := by
  induction l generalizing b with
  | nil => simp [collapseAux]
  | cons d rest ih =>
    simp only [collapseAux]
    by_cases hd : jsWhitespace d = true
    · rw [if_pos hd]
      cases b with
      | true => exact ih true
      | false =>
        show List.Chain' noDoubleWs (' ' :: collapseAux true rest)
        rw [List.chain'_cons']
        refine ⟨fun y hy => ?_, ih true⟩
        have hws := collapseAux_true_head rest y hy
        rintro ⟨_, h2⟩
        rw [hws] at h2
        exact absurd h2 (by decide)
    · rw [if_neg hd]
      rw [List.chain'_cons']
      refine ⟨fun y _ => ?_, ih false⟩
      rintro ⟨h1, _⟩
      exact hd h1

theorem head?_dropWhile_ws (l : List Char) :
    ∀ c, (l.dropWhile jsWhitespace).head? = some c → jsWhitespace c = false := by
  intro c hc
  have h := List.head?_dropWhile_not jsWhitespace l
  rw [hc] at h
  exact h

theorem jsTrim_mem {l : List Char} : ∀ c ∈ jsTrim l, c ∈ l := by
  intro c hc
  simp only [jsTrim, List.mem_reverse] at hc
  have h1 : c ∈ (l.dropWhile jsWhitespace).reverse :=
    List.Sublist.mem hc (List.dropWhile_sublist _)
  rw [List.mem_reverse] at h1
  exact List.Sublist.mem h1 (List.dropWhile_sublist _)

theorem jsTrim_chain' {l : List Char} (h : List.Chain' noDoubleWs l) :
    List.Chain' noDoubleWs (jsTrim l) := by
  unfold jsTrim
  rw [List.chain'_reverse]
  refine List.Chain'.suffix ?_ (List.dropWhile_suffix _)
  rw [List.chain'_reverse]
  exact h.suffix (List.dropWhile_suffix _)

theorem jsTrim_head {l : List Char} :
    ∀ c, (jsTrim l).head? = some c → jsWhitespace c = false := by
  intro c hc
  unfold jsTrim at hc
  rw [List.head?_reverse] at hc
  have hsuf : (l.dropWhile jsWhitespace).reverse.dropWhile jsWhitespace <:+
      (l.dropWhile jsWhitespace).reverse := List.dropWhile_suffix _
  obtain ⟨t, ht⟩ := hsuf
  have hlast : (l.dropWhile jsWhitespace).reverse.getLast? = some c := by
    rw [← ht, List.getLast?_append, hc]
    rfl
  rw [List.getLast?_reverse] at hlast
  exact head?_dropWhile_ws l c hlast

theorem jsTrim_last {l : List Char} :
    ∀ c, (jsTrim l).getLast? = some c → jsWhitespace c = false := by
  intro c hc
  unfold jsTrim at hc
  rw [List.getLast?_reverse] at hc
  exact head?_dropWhile_ws _ c hc

theorem cleanText_ws_mem (s : String) :
    ∀ c ∈ cleanText s, jsWhitespace c = true → c = ' ' := by
  intro c hc hw
  exact collapseAux_mem false (stripMarkers s.data) c (jsTrim_mem c hc) hw

theorem cleanText_chain' (s : String) : List.Chain' noDoubleWs (cleanText s) :=
  jsTrim_chain' (collapseAux_chain' false (stripMarkers s.data))

theorem cleanText_head (s : String) :
    ∀ c, (cleanText s).head? = some c → jsWhitespace c = false :=
  fun c hc => jsTrim_head c hc

theorem cleanText_last (s : String) :
    ∀ c, (cleanText s).getLast? = some c → jsWhitespace c = false :=
  fun c hc => jsTrim_last c hc

theorem cleanText_no_lineTerm (s : String) :
    ∀ c ∈ cleanText s, lineTerm c = false := by
  intro c hc
  by_contra h
  have hlt : lineTerm c = true := by
    cases hlt : lineTerm c with
    | true => rfl
    | false => exact absurd hlt h
  have hw := jsWhitespace_of_lineTerm hlt
  have hsp := cleanText_ws_mem s c hc hw
  rw [hsp] at hlt
  exact absurd hlt (by decide)

theorem extractSummary_data (s : String) (hs : s ≠ "") :
    (extractSummary (some s)).data =
      (cleanText s).take 100 ++
        (if 100 < (cleanText s).length then [ellipsisChar] else []) := by
  simp [extractSummary, hs]

theorem extractSummary_out_mem {s : String} (hs : s ≠ "") :
    ∀ c ∈ (extractSummary (some s)).data, c ∈ cleanText s ∨ c = ellipsisChar := by
  intro c hc
  rw [extractSummary_data s hs] at hc
  rcases List.mem_append.mp hc with h | h
  · exact Or.inl (List.Sublist.mem h (List.take_sublist _ _))
  · by_cases hcond : 100 < (cleanText s).length
    · rw [if_pos hcond] at h
      exact Or.inr (List.mem_singleton.mp h)
    · rw [if_neg hcond] at h
      exact absurd h (List.not_mem_nil c)

theorem extractSummary_out_chain' {s : String} (hs : s ≠ "") :
    List.Chain' noDoubleWs (extractSummary (some s)).data := by
  rw [extractSummary_data s hs, List.chain'_append]
  refine ⟨(cleanText_chain' s).take 100, ?_, ?_⟩
  · by_cases hcond : 100 < (cleanText s).length <;> simp [hcond]
  · intro x _ y hy
    by_cases hcond : 100 < (cleanText s).length
    · rw [if_pos hcond] at hy
      simp only [List.head?_cons, Option.mem_def, Option.some.injEq] at hy
      subst hy
      rintro ⟨_, h2⟩
      exact absurd h2 (by decide)
    · rw [if_neg hcond] at hy
      simp at hy

theorem extractSummary_out_head {s : String} (hs : s ≠ "") :
    ∀ c, (extractSummary (some s)).data.head? = some c →
      jsWhitespace c = false := by
  intro c hc
  rw [extractSummary_data s hs] at hc
  cases hcl : cleanText s with
  | nil =>
    rw [hcl] at hc
    simp at hc
  | cons d rest =>
    rw [hcl, List.head?_append, List.head?_take] at hc
    simp at hc
    subst hc
    have hh : (cleanText s).head? = some d := by rw [hcl]; rfl
    exact cleanText_head s d hh

theorem extractSummary_out_last {s : String} (hs : s ≠ "") :
    ∀ c, (extractSummary (some s)).data.getLast? = some c →
      jsWhitespace c = false := by
  intro c hc
  rw [extractSummary_data s hs] at hc
  by_cases hcond : 100 < (cleanText s).length
  · rw [if_pos hcond, List.getLast?_concat] at hc
    rw [← Option.some.injEq ellipsisChar c |>.mp hc]
    decide
  · rw [if_neg hcond, List.append_nil,
      List.take_of_length_le (by omega)] at hc
    exact cleanText_last s c hc

theorem extractSummary_out_length {s : String} (hs : s ≠ "") :
    (extractSummary (some s)).length =
      min (cleanText s).length 100 +
        (if 100 < (cleanText s).length then 1 else 0) := by
  have hdata : (extractSummary (some s)).length =
      (extractSummary (some s)).data.length := rfl
  rw [hdata, extractSummary_data s hs, List.length_append, List.length_take]
  by_cases hcond : 100 < (cleanText s).length <;> simp [hcond] <;> omega

/-- Claim C5 (amended): for every input, the character-truncate
summarizer's output has no line terminator and hence no marker
occurrence after a line break (a marker-like fragment may survive at the
very start of the output when, in the input, it was preceded by
whitespace rather than placed at a line start); every whitespace
character in the output is a single ASCII space, with no two adjacent
whitespace characters and none at either end; the output length is
min(length of cleaned text, 100) plus exactly one ellipsis character
when the cleaned text exceeds 100 characters; an absent or empty input
yields the empty string. -/
theorem extract_summary_spec (text : Option String) :
    (∀ c ∈ (extractSummary text).data, lineTerm c = false) ∧
    markerScan false (extractSummary text).data = false ∧
    (∀ c ∈ (extractSummary text).data, jsWhitespace c = true → c = ' ') ∧
    List.Chain' noDoubleWs (extractSummary text).data ∧
    (∀ c, (extractSummary text).data.head? = some c → jsWhitespace c = false) ∧
    (∀ c, (extractSummary text).data.getLast? = some c → jsWhitespace c = false) ∧
    (extractSummary text).length ≤ 101 ∧
    (∀ s, text = some s → s ≠ "" →
      (extractSummary text).length =
        min (cleanText s).length 100 +
          (if 100 < (cleanText s).length then 1 else 0) ∧
      (100 < (cleanText s).length →
        (extractSummary text).data.getLast? = some ellipsisChar)) ∧
    extractSummary none = "" ∧ extractSummary (some "") = "" := by
  have htriv : ∀ t : Option String, (extractSummary t).data = [] →
      (∀ c ∈ (extractSummary t).data, lineTerm c = false) ∧
      markerScan false (extractSummary t).data = false ∧
      (∀ c ∈ (extractSummary t).data, jsWhitespace c = true → c = ' ') ∧
      List.Chain' noDoubleWs (extractSummary t).data ∧
      (∀ c, (extractSummary t).data.head? = some c → jsWhitespace c = false) ∧
      (∀ c, (extractSummary t).data.getLast? = some c → jsWhitespace c = false) ∧
      (extractSummary t).length ≤ 101 := by
    intro t ht
    rw [ht]
    refine ⟨by simp, rfl, by simp, by simp, by simp, by simp, ?_⟩
    show (extractSummary t).data.length ≤ 101
    rw [ht]
    simp
  cases text with
  | none =>
    refine ⟨?_, ?_, ?_, ?_, ?_, ?_, ?_, ?_, rfl, rfl⟩ <;>
      first
      | exact (htriv none rfl).1
      | exact (htriv none rfl).2.1
      | exact (htriv none rfl).2.2.1
      | exact (htriv none rfl).2.2.2.1
      | exact (htriv none rfl).2.2.2.2.1
      | exact (htriv none rfl).2.2.2.2.2.1
      | exact (htriv none rfl).2.2.2.2.2.2
      | exact fun s hs => absurd hs (by simp)
  | some s =>
    by_cases hs : s = ""
    · subst hs
      refine ⟨?_, ?_, ?_, ?_, ?_, ?_, ?_, ?_, rfl, rfl⟩ <;>
        first
        | exact (htriv (some "") rfl).1
        | exact (htriv (some "") rfl).2.1
        | exact (htriv (some "") rfl).2.2.1
        | exact (htriv (some "") rfl).2.2.2.1
        | exact (htriv (some "") rfl).2.2.2.2.1
        | exact (htriv (some "") rfl).2.2.2.2.2.1
        | exact (htriv (some "") rfl).2.2.2.2.2.2
        | exact fun s' hs' hne => absurd (Option.some.injEq _ _ ▸ hs') fun h => hne h.symm
    · have hlt : ∀ c ∈ (extractSummary (some s)).data, lineTerm c = false := by
        intro c hc
        rcases extractSummary_out_mem hs c hc with h | rfl
        · exact cleanText_no_lineTerm s c h
        · decide
      have hws : ∀ c ∈ (extractSummary (some s)).data,
          jsWhitespace c = true → c = ' ' := by
        intro c hc hw
        rcases extractSummary_out_mem hs c hc with h | rfl
        · exact cleanText_ws_mem s c h hw
        · exact absurd hw (by decide)
      refine ⟨hlt, markerScan_false_of_no_lineTerm hlt, hws,
        extractSummary_out_chain' hs, extractSummary_out_head hs,
        extractSummary_out_last hs, ?_, ?_, rfl, rfl⟩
      · rw [extractSummary_out_length hs]
        by_cases hcond : 100 < (cleanText s).length <;> simp [hcond]
      · rintro s' hs' hne
        obtain rfl : s = s' := Option.some.injEq _ _ ▸ hs'
        refine ⟨extractSummary_out_length hs, fun hcond => ?_⟩
        rw [extractSummary_data s hs, if_pos hcond, List.getLast?_concat]

/-- Claim C5 counterexample: the input consisting of an ASCII space, the
marker character and a name character is cleaned to a string that does
begin with the marker pattern ○name at the start of a line, refuting
that the output never contains the pattern at a line start. -/
theorem extract_summary_marker_counterexample :
    extractSummary (some (String.mk [' ', circleMark, 'x'])) =
      String.mk [circleMark, 'x'] ∧
    hasStartOfLineMarker (String.mk [circleMark, 'x']) = true := by
  constructor <;> decide

theorem extract_summary_spec_witness :
    (some (String.mk [' ', circleMark, 'x']) = some (String.mk [' ', circleMark, 'x'])) ∧
    String.mk [' ', circleMark, 'x'] ≠ "" ∧
    ((extractSummary (some (String.mk [' ', circleMark, 'x']))).length =
      min (cleanText (String.mk [' ', circleMark, 'x'])).length 100 +
        (if 100 < (cleanText (String.mk [' ', circleMark, 'x'])).length then 1 else 0)) :=
  ⟨rfl, by decide,
   ((extract_summary_spec (some (String.mk [' ', circleMark, 'x']))).2.2.2.2.2.2.2.1
      (String.mk [' ', circleMark, 'x']) rfl (by decide)).1⟩

end Visualization
